import Mathlib

/-!
Verification of the metadata extraction, name reconciliation, caching and
version-sorting core of `pypi_mirror.py` (a tool building a local PyPI
mirror), via a shallow embedding of the relevant functions.

Modelling conventions:
* Python strings are Lean `String`s, but every operation on them is spelled
  out on the underlying `List Char` (`String.data`), so that all
  definitions reduce inside the kernel.
* The filesystem is a `World`: a partial map from paths to `FileData`.
  A `FileData` records the three views of one file's content that the
  program's external libraries produce: its raw bytes (what
  `open(f, "rb").read()` yields, fed to the hash), the outcome of
  `json.load` on it, and its archive member table (what `zipfile` /
  `tarfile` expose).  Implementing gzip/zip/json/utf-8 codecs is out of
  scope: those libraries are abstracted by these three fields.
* `hashlib.sha256(...).hexdigest()` is an external fixed function of the
  file's bytes; it is passed as an explicit parameter `hashFn` to
  `get_pkg_metadata`, the only place the source computes it.
* Python exceptions are the `Except PyError` monad; an exception that the
  source does not catch is a `.error` result.
-/

deriving instance DecidableEq for Except

namespace PypiMirror

/-! ## Python-style string primitives (on `List Char`) -/

/-- `s.split(ch)` with a single-character separator: `"a,b"` ↦ `["a","b"]`,
`""` ↦ `[""]`, `","` ↦ `["",""]`. -/
def splitChar (ch : Char) : List Char → List (List Char)
  | [] => [[]]
  | c :: cs =>
    let r := splitChar ch cs
    if c = ch then [] :: r
    else
      match r with
      | [] => [[c]]
      | h :: t => (c :: h) :: t

/-- Split at the first occurrence of `ch` (`none` when `ch` is absent). -/
def splitAtFirst (ch : Char) : List Char → Option (List Char × List Char)
  | [] => none
  | c :: cs =>
    if c = ch then some ([], cs)
    else (splitAtFirst ch cs).map (fun p => (c :: p.1, p.2))

/-- `s.split(ch, maxsplit)`: at most `maxsplit` splits, remainder kept whole. -/
def splitCharAtMost (ch : Char) : Nat → List Char → List (List Char)
  | 0, l => [l]
  | n + 1, l =>
    match splitAtFirst ch l with
    | none => [l]
    | some (a, b) => a :: splitCharAtMost ch n b

/-- Whitespace stripped by Python `str.strip()` (the ASCII portion; the
header values handled below never contain the rarer Unicode spaces). -/
def py_isspace (c : Char) : Bool :=
  c = ' ' || c = '\t' || c = '\n' || c = '\r' || c = '\x0b' || c = '\x0c'

/-- Python `s.strip()`. -/
def py_strip (s : String) : String :=
  ⟨((s.data.dropWhile py_isspace).reverse.dropWhile py_isspace).reverse⟩

/-- Python `s.startswith(t)`. -/
def py_startswith (s t : String) : Bool :=
  t.data.isPrefixOf s.data

/-- Python `s.endswith(t)`. -/
def py_endswith (s t : String) : Bool :=
  t.data.isSuffixOf s.data

/-- The suffix of `l` after the last occurrence of `ch` (all of `l` when
`ch` does not occur): the second component of Python `s.rsplit(ch, 1)`. -/
def afterLast (ch : Char) (l : List Char) : List Char :=
  (l.reverse.takeWhile (fun c => c ≠ ch)).reverse

/-- `os.path.basename`: the part of a path after the last `/`. -/
def basename (p : String) : String :=
  ⟨afterLast '/' p.data⟩

/-- Index of the first occurrence of `pat` in `l` (Python `s.find(pat)`,
with `none` for `-1`). -/
def firstOccur (pat : List Char) : List Char → Option Nat
  | [] => if pat = [] then some 0 else none
  | c :: cs =>
    if pat.isPrefixOf (c :: cs) then some 0
    else (firstOccur pat cs).map (· + 1)

/-- Python `s.rsplit("-", 1)` when it yields exactly two parts; `none`
models the `ValueError` raised when `s` contains no `-`. -/
def rsplitDash (s : String) : Option (String × String) :=
  if s.data.contains '-' then
    let after := afterLast '-' s.data
    some (⟨s.data.take (s.data.length - after.length - 1)⟩, ⟨after⟩)
  else none

/-! ## `normalize` -/

/-- Characters collapsed by the `[-_.]+` regular expression. -/
def is_sep (c : Char) : Bool :=
  c = '-' || c = '_' || c = '.'

/-- `re.sub(r"[-_.]+", "-", ·)` on the character list: every maximal run of
`-`, `_`, `.` becomes a single `-`. -/
def collapseSeps : List Char → List Char
  | [] => []
  | [c] => if is_sep c then ['-'] else [c]
  | c :: d :: rest =>
    if is_sep c then
      if is_sep d then collapseSeps (d :: rest)
      else '-' :: collapseSeps (d :: rest)
    else c :: collapseSeps (d :: rest)

/-- `normalize` from the source: `re.sub(r"[-_.]+", "-", name).lower()`.
`str.lower` is modelled per character by `Char.toLower` (the names handled
are ASCII; `Char.toLower` lower-cases exactly `A`–`Z`). -/
def normalize (name : String) : String :=
  ⟨(collapseSeps name.data).map Char.toLower⟩

/-! ## Data model -/

/-- The `Metadata` value type of the source, with the constructor defaults
of `Metadata.__init__` (`trusted=True`, `sha256=""`). -/
structure Metadata where
  name : String
  norm_name : String
  version : String
  homepage : String
  trusted : Bool := true
  sha256 : String := ""
deriving DecidableEq

/-- The `Pkg` pair of the source: a file path plus its metadata. -/
structure Pkg where
  file : String
  metadata : Metadata
deriving DecidableEq

/-- The sidecar suffix `metadata_ext = ".metadata.json"`. -/
def metadata_ext : String := ".metadata.json"

/-- Python exceptions distinguished by the source's `try`/`except` clauses. -/
inductive PyError
  | fileNotFound
  | unicodeDecodeError
  | typeError
  | exception (msg : String)
deriving DecidableEq

/-! ## The filesystem and the external decoders -/

/-- A JSON scalar as the program writes and reads it.  The six fields of a
cache record are five strings and one boolean; `json.dump`/`json.load`
round-trip these values exactly. -/
inductive JsonScalar
  | s (v : String)
  | b (v : Bool)
deriving DecidableEq

/-- Outcome of `json.load(open(path))` on a file's content: the bytes do
not decode in the text encoding (`UnicodeDecodeError`), decode but are not
valid JSON (`json.JSONDecodeError`), or parse as a JSON object of scalars.
Records the program itself writes are always flat objects of scalars. -/
inductive JsonFile
  | undecodable
  | invalid
  | object (pairs : List (String × JsonScalar))
deriving DecidableEq

/-- One file's content, through the three lenses the source applies to
files: raw bytes (for `hashlib.sha256`), `json.load`, and the archive
member table of `zipfile`/`tarfile` (member path ↦ decoded content). -/
structure FileData where
  bytes : List Nat
  asJson : JsonFile
  asArchive : List (String × String)
deriving DecidableEq

/-- The filesystem: a partial map from paths to file contents. -/
structure World where
  file : String → Option FileData

/-! ## Metadata-file header parsing (`parse_pkg_metadata`) -/

/-- First line of `md` starting with `fieldPre`; value is the rest of that
line, stripped — the effect of `re.search(rb"^X: (.*)$", md, re.MULTILINE)`
followed by `.strip()` (a `\r` left by the dot lands in the strip). -/
def findField (fieldPre : String) (md : String) : Option String :=
  ((splitChar '\n' md.data).find? (fun l => fieldPre.data.isPrefixOf l)).map
    (fun l => py_strip ⟨l.drop fieldPre.data.length⟩)

/-- Same, for a pattern with several alternative line prefixes: the first
line matching any alternative wins (the regular expression returns the
earliest match position, and all alternatives are anchored at line starts). -/
def findFieldAny (pres : List String) (md : String) : Option String :=
  (splitChar '\n' md.data).findSome? (fun l =>
    (pres.find? (fun p => p.data.isPrefixOf l)).map
      (fun p => py_strip ⟨l.drop p.data.length⟩))

/-- The line prefixes matched by
`^(?:Home-[pP]age:|Project-URL: [Hh]ome-?[pP]age,) ` —
two spellings of the dedicated header and the eight spellings admitted
inside a `Project-URL` entry. -/
def homepagePrefixes : List String :=
  ["Home-Page: ", "Home-page: ",
   "Project-URL: Home-Page, ", "Project-URL: Home-page, ",
   "Project-URL: HomePage, ", "Project-URL: Homepage, ",
   "Project-URL: home-Page, ", "Project-URL: home-page, ",
   "Project-URL: homePage, ", "Project-URL: homepage, "]

/-- `parse_pkg_metadata` from the source: mandatory `Name` and `Version`
header lines (missing either raises), optional homepage (empty if absent);
`norm_name` is `normalize(name)`, `trusted`/`sha256` take the constructor
defaults. -/
def parse_pkg_metadata (metadata : String) : Except PyError Metadata :=
  match findField "Name: " metadata with
  | none => .error (.exception "invalid metadata file, missing Name field")
  | some name =>
    match findField "Version: " metadata with
    | none => .error (.exception "invalid metadata file, missing Version field")
    | some version =>
      let homepage := (findFieldAny homepagePrefixes metadata).getD ""
      .ok { name := name, norm_name := normalize name, version := version,
            homepage := homepage }

/-! ## `urllib.parse.urlparse(...).path` -/

/-- Characters allowed after the first one in a URL scheme. -/
def schemeChar (c : Char) : Bool :=
  c.isAlphanum || c = '+' || c = '-' || c = '.'

/-- Scheme removal of `urlsplit`: a leading `<scheme>:` is dropped when the
part before the first `:` is nonempty, starts with a letter and continues
with scheme characters. -/
def stripScheme (l : List Char) : List Char :=
  match splitAtFirst ':' l with
  | none => l
  | some (before, after) =>
    match before with
    | [] => l
    | b :: bs => if b.isAlpha && bs.all schemeChar then after else l

/-- Netloc removal of `urlsplit`: after a leading `//`, everything up to
the first `/`, `?` or `#` is the netloc; the remainder (delimiter
included) goes on to the path. -/
def afterNetloc : List Char → List Char
  | '/' :: '/' :: rest => rest.dropWhile (fun c => !(c = '/' || c = '?' || c = '#'))
  | l => l

/-- `urllib.parse.urlparse(url).path`: strip the scheme, strip the netloc,
cut at the fragment (`#`) and then at the query (`?`).  The control- and
whitespace-character stripping `urlsplit` performs first is omitted: the
homepage values considered in the theorems contain none. -/
def urlparse_path (url : String) : String :=
  ⟨((afterNetloc (stripScheme url.data)).takeWhile (fun c => c ≠ '#')).takeWhile
    (fun c => c ≠ '?')⟩

/-! ## Archive metadata extraction -/

/-- `os.path.join(pfx, "PKG-INFO")` for a nonempty-or-empty directory part
(the source's `prefix` never ends in a slash: it comes from a basename). -/
def pkg_info_member (pfx : String) : String :=
  if pfx = "" then "PKG-INFO" else pfx ++ "/" ++ "PKG-INFO"

/-- `get_metadata_from_archive` from the source (the callers
`get_metadata_from_zip` / `get_metadata_from_tar` have already opened the
file, hence the `w.file f` lookup first).  The member path is
`<prefix>/PKG-INFO` where `prefix` is the basename cut at the first
occurrence of the extension; a missing member (`KeyError`) falls back to
splitting the prefix at its last `-`, and only an un-splittable prefix
raises. -/
def get_metadata_from_archive (w : World) (f : String) (extension : String) :
    Except PyError Metadata :=
  match w.file f with
  | none => .error .fileNotFound
  | some fd =>
    let f_name := basename f
    match firstOccur extension.data f_name.data with
    | none => .error (.exception "invalid archive file name")
    | some idx =>
      let pfx : String := ⟨f_name.data.take idx⟩
      match List.lookup (pkg_info_member pfx) fd.asArchive with
      | some md => parse_pkg_metadata md
      | none =>
        match rsplitDash pfx with
        | some nv => .ok { name := nv.1, norm_name := normalize nv.1,
                           version := nv.2, homepage := "" }
        | none => .error (.exception "unable to extract metadata")

/-- `get_metadata_from_zip`. -/
def get_metadata_from_zip (w : World) (f : String) : Except PyError Metadata :=
  get_metadata_from_archive w f ".zip"

/-- `get_metadata_from_tar` (the extension is `.tar.gz` or `.tar.bz2`). -/
def get_metadata_from_tar (w : World) (f : String) (extension : String) :
    Except PyError Metadata :=
  get_metadata_from_archive w f extension

/-- The wheel's in-archive metadata path:
`"-".join(whl_name.split("-", 2)[:2]) + ".dist-info/METADATA"`. -/
def wheel_metadata_member (whl_name : String) : String :=
  ⟨List.intercalate ['-'] ((splitCharAtMost '-' 2 whl_name.data).take 2)⟩ ++
    ".dist-info" ++ "/" ++ "METADATA"

/-- Python `s[:-1]` applied when `s` ends in `/`. -/
def strip_trailing_slash (s : String) : String :=
  if py_endswith s "/" then ⟨s.data.dropLast⟩ else s

/-- `get_metadata_from_wheel` from the source.  When the wheel filename
does not start with the declared name, `trusted` is cleared and the name
repair runs: it requires the homepage URL path to be nonempty, absolute
(leading `/`), and still nonempty after dropping one trailing slash; the
final path segment is adopted as the name only when the filename starts
with it.  `norm_name` is never touched by the repair. -/
def get_metadata_from_wheel (w : World) (f : String) : Except PyError Metadata :=
  match w.file f with
  | none => .error .fileNotFound
  | some fd =>
    let whl_name := basename f
    match List.lookup (wheel_metadata_member whl_name) fd.asArchive with
    | none => .error (.exception "metadata file not found")
    | some content =>
      match parse_pkg_metadata content with
      | .error e => .error e
      | .ok metadata =>
        if py_startswith whl_name metadata.name then .ok metadata
        else
          let metadata := { metadata with trusted := false }
          let homepage_path := urlparse_path metadata.homepage
          if homepage_path ≠ "" ∧ homepage_path.data.head? = some '/' then
            let hp := strip_trailing_slash homepage_path
            if hp ≠ "" then
              let bn : String := ⟨afterLast '/' hp.data⟩
              if py_startswith whl_name bn then .ok { metadata with name := bn }
              else .ok metadata
            else .ok metadata
          else .ok metadata

/-! ## The metadata cache -/

/-- The slot names of `Metadata.__slots__`. -/
def metadata_slots : List String :=
  ["name", "norm_name", "version", "homepage", "trusted", "sha256"]

/-- `Metadata(**kwargs)` on a JSON object: every key must be a slot name,
the four positional slots must be present, `trusted` and `sha256` default
when absent; `none` models the `TypeError` on unexpected or missing keys.
(Python checks only the keyword names, not the value types; the model
restricts values to the scalar shapes the program itself writes — strings
for the five text slots, a boolean for `trusted` — and no theorem below
depends on a record with differently-typed values.) -/
def metadata_from_kwargs (ps : List (String × JsonScalar)) : Option Metadata :=
  if (ps.all fun p => metadata_slots.contains p.1) then
    match List.lookup "name" ps, List.lookup "norm_name" ps,
        List.lookup "version" ps, List.lookup "homepage" ps with
    | some (JsonScalar.s name), some (JsonScalar.s norm_name),
      some (JsonScalar.s version), some (JsonScalar.s homepage) =>
      match List.lookup "trusted" ps, List.lookup "sha256" ps with
      | none, none => some { name, norm_name, version, homepage }
      | some (JsonScalar.b t), none =>
        some { name, norm_name, version, homepage, trusted := t }
      | none, some (JsonScalar.s h) =>
        some { name, norm_name, version, homepage, sha256 := h }
      | some (JsonScalar.b t), some (JsonScalar.s h) =>
        some { name, norm_name, version, homepage, trusted := t, sha256 := h }
      | _, _ => none
    | _, _, _, _ => none
  else none

/-- `get_metadata_from_json` from the source: a missing sidecar
(`FileNotFoundError`) and invalid JSON text (`json.JSONDecodeError`) are
caught and yield `None`, as does a `TypeError` from `Metadata(**d)`; bytes
that do not decode raise `UnicodeDecodeError`, which no clause catches. -/
def get_metadata_from_json (w : World) (f : String) :
    Except PyError (Option Metadata) :=
  match w.file (f ++ metadata_ext) with
  | none => .ok none
  | some fd =>
    match fd.asJson with
    | .undecodable => .error .unicodeDecodeError
    | .invalid => .ok none
    | .object ps => .ok (metadata_from_kwargs ps)

/-- The `metadata.sha256 = h` step of `get_pkg_metadata`: on a successful
extraction, overwrite `sha256` with the hash of the file's raw bytes. -/
def with_sha256 (hashFn : List Nat → String) (w : World) (f : String)
    (r : Except PyError Metadata) : Except PyError Metadata :=
  match r, w.file f with
  | .error e, _ => .error e
  | .ok m, some fd => .ok { m with sha256 := hashFn fd.bytes }
  | .ok _, none => .error .fileNotFound

/-- `get_pkg_metadata` from the source: a successfully loaded cache record
is returned as is (a `Metadata` instance is always truthy); otherwise the
getter for the first matching extension — in the insertion order of
`_metadata_getter`: `.whl`, `.zip`, `.tar.gz`, `.tar.bz2` — runs and its
result gets the freshly computed hash; an unknown extension raises. -/
def get_pkg_metadata (hashFn : List Nat → String) (w : World) (f : String) :
    Except PyError Metadata :=
  match get_metadata_from_json w f with
  | .error e => .error e
  | .ok (some metadata) => .ok metadata
  | .ok none =>
    if py_endswith f ".whl" then with_sha256 hashFn w f (get_metadata_from_wheel w f)
    else if py_endswith f ".zip" then with_sha256 hashFn w f (get_metadata_from_zip w f)
    else if py_endswith f ".tar.gz" then
      with_sha256 hashFn w f (get_metadata_from_tar w f ".tar.gz")
    else if py_endswith f ".tar.bz2" then
      with_sha256 hashFn w f (get_metadata_from_tar w f ".tar.bz2")
    else .error (.exception "unknown extension")

/-- The JSON object `create_metadata_files` serializes:
`{attr: getattr(pkg.metadata, attr) for attr in Metadata.__slots__}`. -/
def metadata_record (m : Metadata) : List (String × JsonScalar) :=
  [("name", .s m.name), ("norm_name", .s m.norm_name),
   ("version", .s m.version), ("homepage", .s m.homepage),
   ("trusted", .b m.trusted), ("sha256", .s m.sha256)]

/-- Write one file into the filesystem. -/
def write_file (w : World) (p : String) (fd : FileData) : World :=
  ⟨fun q => if q = p then some fd else w.file q⟩

/-- The per-package body of the loop in `create_metadata_files`: skip when
the sidecar exists, else dump the record beside the artifact.  The written
file's raw-byte and archive views are empty: no modelled reader ever opens
a sidecar as an archive or hashes it (`list_dir` in the source filters
sidecars out of the package listing). -/
def create_metadata_file (w : World) (pkg : Pkg) : World :=
  let metadata_file := pkg.file ++ metadata_ext
  if (w.file metadata_file).isSome then w
  else write_file w metadata_file
    { bytes := [], asJson := .object (metadata_record pkg.metadata), asArchive := [] }

/-! ## `distutils.version.LooseVersion` and `sort_versions` -/

/-- One entry of `LooseVersion(v).version`: `int` components for digit
runs, `str` components for everything else that survives the split. -/
inductive LVComp
  | num (n : Nat)
  | str (s : String)
deriving DecidableEq

/-- Character classes of the `LooseVersion` tokenizer
`re.split(r"(\d+|[a-z]+|\.)", v)`: ASCII digit runs and lowercase runs are
matches, each `.` is a match that gets filtered out, and every maximal run
of remaining characters is a kept gap piece. -/
def lvClass (c : Char) : Nat :=
  if c.isDigit then 0 else if 'a' ≤ c ∧ c ≤ 'z' then 1 else if c = '.' then 2 else 3

/-- Numeric value of a digit run (Python `int`). -/
def natOfDigits (l : List Char) : Nat :=
  l.foldl (fun n c => 10 * n + (c.toNat - 48)) 0

/-- Emit the component for one finished run: dots vanish, digit runs
become numbers, lowercase runs and gap pieces stay strings (`int()` on a
digit-free piece raises `ValueError`, which `LooseVersion` swallows). -/
def lvEmit (cls : Nat) (run : List Char) : List LVComp :=
  if cls = 2 then []
  else if cls = 0 then [.num (natOfDigits run)] else [.str ⟨run⟩]

/-- Accumulate maximal runs of one character class. -/
def lvGo : Nat → List Char → List Char → List LVComp
  | cls, run, [] => lvEmit cls run
  | cls, run, c :: cs =>
    if lvClass c = cls then lvGo cls (run ++ [c]) cs
    else lvEmit cls run ++ lvGo (lvClass c) [c] cs

/-- `distutils.version.LooseVersion(v).version` (Unicode digits aside,
which no version string here contains). -/
def lvComponents : List Char → List LVComp
  | [] => []
  | c :: cs => lvGo (lvClass c) [c] cs

/-- Python-3 comparison of two components: `int` vs `int` and `str` vs
`str` compare normally; `int` vs `str` is unequal under `==` and raises
`TypeError` under `<`, so any mixed pair is an error. -/
def lvCmp : LVComp → LVComp → Except PyError Ordering
  | .num a, .num b => .ok (compare a b)
  | .str a, .str b => .ok (compare a b)
  | _, _ => .error .typeError

/-- Python list comparison on component lists: first differing position
decides, a strict prefix is smaller, and a mixed-type pair raises. -/
def pyListCmp : List LVComp → List LVComp → Except PyError Ordering
  | [], [] => .ok .eq
  | [], _ :: _ => .ok .lt
  | _ :: _, [] => .ok .gt
  | a :: as, b :: bs =>
    match lvCmp a b with
    | .error e => .error e
    | .ok .eq => pyListCmp as bs
    | .ok o => .ok o

/-- Does a comparison succeed? -/
def exceptOk {ε α : Type} : Except ε α → Bool
  | .ok _ => true
  | .error _ => false

/-- Descending order: `a` may precede `b` unless `key a < key b` (ties
keep the original order, as `sorted(..., reverse=True)` is stable). -/
def lv_le (a b : List LVComp) : Bool :=
  match pyListCmp a b with
  | .ok .lt => false
  | _ => true

/-- Stable insertion: `a` goes before the first element it may precede. -/
def py_insert {α : Type} (le : α → α → Bool) (a : α) : List α → List α
  | [] => [a]
  | b :: l => if le a b then a :: b :: l else b :: py_insert le a l

/-- A stable sort; on a total preorder it returns exactly what Python's
stable `sorted` returns. -/
def py_sorted {α : Type} (le : α → α → Bool) : List α → List α
  | [] => []
  | a :: l => py_insert le a (py_sorted le l)

/-- `sort_versions` from the source (with its default `reverse=True`):
sort by `LooseVersion(v).version`, largest first.  CPython raises when its
sort actually performs a mixed-type comparison; which element pairs a sort
compares is an implementation detail, but no error can occur when every
pair of keys is comparable, and on a two-element list the one existing
pair is always compared — the model errors exactly when some pair of keys
is incomparable, which coincides with CPython on both of those regimes
(the only ones the theorems below use). -/
def sort_versions (versions : List String) : Except PyError (List String) :=
  let keyed := versions.map (fun v => (v, lvComponents v.data))
  if (keyed.all fun a => keyed.all fun b => exceptOk (pyListCmp a.2 b.2)) then
    .ok ((py_sorted (fun a b => lv_le a.2 b.2) keyed).map (fun a => a.1))
  else .error .typeError

/-! ## `fix_pkg_names` -/

/-- The sort key `lambda p: p.metadata.trusted`. -/
def trusted_key (p : Pkg) : Bool :=
  p.metadata.trusted

/-- The mutation `pkg.metadata.name = n`. -/
def set_name (n : String) (p : Pkg) : Pkg :=
  { p with metadata := { p.metadata with name := n } }

/-- `itertools.groupby` with a boolean key: maximal runs of equal keys. -/
def groupby {α : Type} (key : α → Bool) : List α → List (Bool × List α)
  | [] => []
  | a :: as =>
    match groupby key as with
    | [] => [(key a, [a])]
    | (k, g) :: rest =>
      if key a = k then (k, a :: g) :: rest
      else (key a, [a]) :: (k, g) :: rest

/-- The loop of `fix_pkg_names` over the grouped, sorted package list.
Packages here carry their index in the original list, modelling Python
object identity; the result is the set of in-place name assignments
(index ↦ new name).  A trusted group updates `trusted_name` from its first
member (`next(pkgs)`) and assigns nothing; an untrusted group is renamed
wholesale once `trusted_name` is set. -/
def fix_loop : Option String → List (Bool × List (Nat × Pkg)) → List (Nat × String)
  | _, [] => []
  | tn, (trusted, g) :: rest =>
    if trusted then
      fix_loop (match g.head? with
                | some ip => some ip.2.metadata.name
                | none => tn) rest
    else
      (match tn with
       | some n => g.map (fun ip => (ip.1, n))
       | none => []) ++ fix_loop tn rest

/-- `fix_pkg_names` from the source, which mutates the `Pkg` objects in
place; the model returns the updated input list.  Indices from `enum`
stand for object identity.  `sorted(pkgs, key=trusted, reverse=True)` is a
stable sort on a boolean key, so the sorted list is exactly the trusted
packages in input order followed by the untrusted ones in input order; the
loop's assignments are then applied back to the objects of the original
list. -/
def fix_pkg_names (pkgs : List Pkg) : List Pkg :=
  let objs := pkgs.enum
  let sorted_objs := objs.filter (fun ip => trusted_key ip.2) ++
    objs.filter (fun ip => !trusted_key ip.2)
  let muts := fix_loop none (groupby (fun ip => trusted_key ip.2) sorted_objs)
  objs.map (fun ip =>
    match List.lookup ip.1 muts with
    | some n => set_name n ip.2
    | none => ip.2)

/-! ## Lemmas about `Char.toLower` -/

theorem toLower_of_not_upper (c : Char) (h : ¬(c.toNat ≥ 65 ∧ c.toNat ≤ 90)) :
    c.toLower = c := by
  simp only [Char.toLower]
  rw [if_neg h]

theorem toLower_toLower (c : Char) : c.toLower.toLower = c.toLower := by
  by_cases h : c.toNat ≥ 65 ∧ c.toNat ≤ 90
  · have key : ∀ n, n < 91 → 65 ≤ n →
        (Char.ofNat n).toLower.toLower = (Char.ofNat n).toLower := by decide
    rw [← Char.ofNat_toNat c]
    exact key c.toNat (by omega) h.1
  · rw [toLower_of_not_upper c h, toLower_of_not_upper c h]

theorem toLower_sep_iff (c : Char) :
    (c.toLower = '-' ↔ c = '-') ∧ (c.toLower = '_' ↔ c = '_') ∧
      (c.toLower = '.' ↔ c = '.') := by
  by_cases h : c.toNat ≥ 65 ∧ c.toNat ≤ 90
  · have key : ∀ n, n < 91 → 65 ≤ n →
        (((Char.ofNat n).toLower = '-' ↔ Char.ofNat n = '-') ∧
          ((Char.ofNat n).toLower = '_' ↔ Char.ofNat n = '_') ∧
          ((Char.ofNat n).toLower = '.' ↔ Char.ofNat n = '.')) := by decide
    rw [← Char.ofNat_toNat c]
    exact key c.toNat (by omega) h.1
  · rw [toLower_of_not_upper c h]
    exact ⟨Iff.rfl, Iff.rfl, Iff.rfl⟩

/-! ## `normalize` is idempotent -/

/-- Well-collapsed character lists: no `_` or `.` anywhere, and no two
adjacent `-`.  Exactly the lists on which the `[-_.]+` substitution is the
identity. -/
def collapsed : List Char → Bool
  | [] => true
  | [c] => !(c == '_' || c == '.')
  | c :: d :: rest => !(c == '_' || c == '.') && !(c == '-' && d == '-') && collapsed (d :: rest)

theorem collapseSeps_cons_not_sep (d : Char) (rest : List Char)
    (h : is_sep d = false) : collapseSeps (d :: rest) = d :: collapseSeps rest := by
  cases rest with
  | nil => simp [collapseSeps, h]
  | cons e es => simp [collapseSeps, h]

theorem collapsed_cons (c : Char) (l : List Char) (hc : is_sep c = false)
    (hl : collapsed l = true) : collapsed (c :: l) = true := by
  simp only [is_sep, Bool.or_eq_false_iff, decide_eq_false_iff_not] at hc
  obtain ⟨⟨h1, h2⟩, h3⟩ := hc
  cases l with
  | nil => simp [collapsed, h1, h2, h3]
  | cons x xs => simp [collapsed, h1, h2, h3, hl]

theorem collapsed_dash_cons (d : Char) (l : List Char) (hd : is_sep d = false)
    (h : collapsed (d :: l) = true) : collapsed ('-' :: d :: l) = true := by
  simp only [is_sep, Bool.or_eq_false_iff, decide_eq_false_iff_not] at hd
  simp [collapsed, hd.1, h]

theorem collapsed_collapseSeps (l : List Char) : collapsed (collapseSeps l) = true := by
  induction l with
  | nil => rfl
  | cons c tail ih =>
    cases tail with
    | nil =>
      by_cases hc : is_sep c = true
      · simp [collapseSeps, hc, collapsed]
      · rw [show collapseSeps [c] = [c] by simp [collapseSeps, hc]]
        exact collapsed_cons c [] (by revert hc; cases is_sep c <;> simp) rfl
    | cons d rest =>
      by_cases hc : is_sep c = true
      · by_cases hd : is_sep d = true
        · rw [show collapseSeps (c :: d :: rest) = collapseSeps (d :: rest) by
            simp [collapseSeps, hc, hd]]
          exact ih
        · have hd' : is_sep d = false := by revert hd; cases is_sep d <;> simp
          rw [show collapseSeps (c :: d :: rest) = '-' :: collapseSeps (d :: rest) by
            simp [collapseSeps, hc, hd']]
          rw [collapseSeps_cons_not_sep d rest hd']
          apply collapsed_dash_cons d _ hd'
          rw [← collapseSeps_cons_not_sep d rest hd']
          exact ih
      · have hc' : is_sep c = false := by revert hc; cases is_sep c <;> simp
        rw [show collapseSeps (c :: d :: rest) = c :: collapseSeps (d :: rest) by
          simp [collapseSeps, hc']]
        exact collapsed_cons c _ hc' ih

theorem collapsed_head (d : Char) (l : List Char) (h : collapsed (d :: l) = true) :
    d ≠ '_' ∧ d ≠ '.' := by
  cases l with
  | nil => simpa [collapsed] using h
  | cons x xs =>
    simp only [collapsed, Bool.and_eq_true, Bool.not_eq_true', Bool.or_eq_false_iff,
      beq_eq_false_iff_ne, ne_eq] at h
    exact h.1.1

theorem collapsed_tail (c : Char) (l : List Char) (h : collapsed (c :: l) = true) :
    collapsed l = true := by
  cases l with
  | nil => rfl
  | cons x xs =>
    simp only [collapsed, Bool.and_eq_true] at h
    exact h.2

theorem collapsed_pair (c d : Char) (rest : List Char)
    (h : collapsed (c :: d :: rest) = true) : ¬(c = '-' ∧ d = '-') := by
  simp only [collapsed, Bool.and_eq_true, Bool.not_eq_true', Bool.and_eq_false_iff,
    beq_eq_false_iff_ne, ne_eq] at h
  rcases h.1.2 with h1 | h1
  · exact fun he => h1 he.1
  · exact fun he => h1 he.2

theorem collapsed_collapseSeps_id (l : List Char) (h : collapsed l = true) :
    collapseSeps l = l := by
  induction l with
  | nil => rfl
  | cons c tail ih =>
    have hc2 := collapsed_head c tail h
    have htail := collapsed_tail c tail h
    cases tail with
    | nil =>
      by_cases hdash : c = '-'
      · subst hdash; rfl
      · have hc : is_sep c = false := by
          simp only [is_sep, Bool.or_eq_false_iff, decide_eq_false_iff_not]
          exact ⟨⟨hdash, hc2.1⟩, hc2.2⟩
        simp [collapseSeps, hc]
    | cons d rest =>
      have hd2 := collapsed_head d rest htail
      have hpair := collapsed_pair c d rest h
      by_cases hdash : c = '-'
      · have hdne : d ≠ '-' := fun he => hpair ⟨hdash, he⟩
        have hd : is_sep d = false := by
          simp only [is_sep, Bool.or_eq_false_iff, decide_eq_false_iff_not]
          exact ⟨⟨hdne, hd2.1⟩, hd2.2⟩
        subst hdash
        rw [show collapseSeps ('-' :: d :: rest) = '-' :: collapseSeps (d :: rest) from by
          have hsep : is_sep '-' = true := by decide
          simp [collapseSeps, hsep, hd]]
        rw [ih htail]
      · have hc : is_sep c = false := by
          simp only [is_sep, Bool.or_eq_false_iff, decide_eq_false_iff_not]
          exact ⟨⟨hdash, hc2.1⟩, hc2.2⟩
        rw [collapseSeps_cons_not_sep c _ hc, ih htail]

theorem collapsed_map_toLower (l : List Char) (h : collapsed l = true) :
    collapsed (l.map Char.toLower) = true := by
  induction l with
  | nil => rfl
  | cons c tail ih =>
    have hc := collapsed_head c tail h
    have htail := collapsed_tail c tail h
    have h1 : c.toLower ≠ '_' := fun he => hc.1 ((toLower_sep_iff c).2.1.mp he)
    have h2 : c.toLower ≠ '.' := fun he => hc.2 ((toLower_sep_iff c).2.2.mp he)
    cases tail with
    | nil => simp [collapsed, h1, h2]
    | cons d rest =>
      have hpair := collapsed_pair c d rest h
      have h3 : ¬(c.toLower = '-' ∧ d.toLower = '-') := fun he =>
        hpair ⟨(toLower_sep_iff c).1.mp he.1, (toLower_sep_iff d).1.mp he.2⟩
      have ihh := ih htail
      simp only [List.map, collapsed, Bool.and_eq_true, Bool.not_eq_true',
        Bool.or_eq_false_iff, beq_eq_false_iff_ne, ne_eq, Bool.and_eq_false_iff]
      refine ⟨⟨⟨h1, h2⟩, ?_⟩, ?_⟩
      · by_cases hcl : c.toLower = '-'
        · right; exact fun he => h3 ⟨hcl, he⟩
        · left; exact hcl
      · simpa using ihh

theorem collapseSeps_fix (l : List Char) :
    collapseSeps ((collapseSeps l).map Char.toLower) = (collapseSeps l).map Char.toLower :=
  collapsed_collapseSeps_id _ (collapsed_map_toLower _ (collapsed_collapseSeps l))

theorem normalize_normalize (s : String) : normalize (normalize s) = normalize s := by
  apply String.ext
  show (collapseSeps ((collapseSeps s.data).map Char.toLower)).map Char.toLower
      = (collapseSeps s.data).map Char.toLower
  rw [collapseSeps_fix, List.map_map]
  exact List.map_congr_left (fun a _ => toLower_toLower a)

/-- C8: `normalize` (lower-casing after collapsing every maximal run of
`-`, `_`, `.` to a single `-`) is idempotent on every string, and on the
spec's example `normalize "My__Pkg--Name..X" = "my-pkg-name-x"`. -/
theorem normalize_idempotent_spec :
    (∀ s : String, normalize (normalize s) = normalize s) ∧
      normalize "My__Pkg--Name..X" = "my-pkg-name-x" :=
  ⟨normalize_normalize, by decide⟩

/-! ## Characterizing `fix_pkg_names` -/

theorem groupby_cons {α : Type} (key : α → Bool) (a : α) (as : List α) :
    groupby key (a :: as) =
      match groupby key as with
      | [] => [(key a, [a])]
      | (k, g) :: rest =>
        if key a = k then (k, a :: g) :: rest
        else (key a, [a]) :: (k, g) :: rest := rfl

theorem groupby_const {α : Type} (key : α → Bool) (b : Bool) (l : List α) :
    l ≠ [] → (∀ x ∈ l, key x = b) → groupby key l = [(b, l)] := by
  induction l with
  | nil => intro h _; exact absurd rfl h
  | cons a as ih =>
    intro _ hall
    cases as with
    | nil => simp [groupby, hall a (by simp)]
    | cons a' as' =>
      rw [groupby_cons, ih (by simp) (fun x hx => hall x (List.mem_cons_of_mem a hx))]
      simp [hall a (by simp)]

theorem groupby_true_false {α : Type} (key : α → Bool) (ul : List α)
    (hul : ul ≠ []) (h2 : ∀ x ∈ ul, key x = false) :
    ∀ tl : List α, tl ≠ [] → (∀ x ∈ tl, key x = true) →
      groupby key (tl ++ ul) = [(true, tl), (false, ul)] := by
  intro tl
  induction tl with
  | nil => intro h _; exact absurd rfl h
  | cons a as ih =>
    intro _ h1
    rw [List.cons_append, groupby_cons]
    cases as with
    | nil =>
      rw [List.nil_append, groupby_const key false ul hul h2]
      simp [h1 a (by simp)]
    | cons a' as' =>
      rw [ih (by simp) (fun x hx => h1 x (List.mem_cons_of_mem a hx))]
      simp [h1 a (by simp)]

theorem fix_loop_true_only (g : List (Nat × Pkg)) :
    fix_loop none [(true, g)] = [] := by
  simp [fix_loop]

theorem fix_loop_false_only (g : List (Nat × Pkg)) :
    fix_loop none [(false, g)] = [] := by
  simp [fix_loop]

theorem fix_loop_true_false (x : Nat × Pkg) (tl ul : List (Nat × Pkg)) :
    fix_loop none [(true, x :: tl), (false, ul)] =
      ul.map (fun ip => (ip.1, x.2.metadata.name)) := by
  simp [fix_loop]

theorem lookup_map_const_of_mem {l : List (Nat × Pkg)} {i : Nat} {p : Pkg}
    (n : String) (h : (i, p) ∈ l) :
    List.lookup i (l.map (fun ip => (ip.1, n))) = some n := by
  induction l with
  | nil => cases h
  | cons hd tl ih =>
    rcases List.mem_cons.mp h with he | he
    · simp [List.lookup, ← he]
    · by_cases hb : i = hd.1
      · simp [List.lookup, hb]
      · have hb' : (i == hd.1) = false := beq_eq_false_iff_ne.mpr hb
        simp [List.lookup, hb', ih he]

theorem lookup_map_const_of_not_mem {l : List (Nat × Pkg)} {i : Nat}
    (n : String) (h : ∀ p, (i, p) ∉ l) :
    List.lookup i (l.map (fun ip => (ip.1, n))) = none := by
  induction l with
  | nil => rfl
  | cons hd tl ih =>
    have hne : i ≠ hd.1 := by
      intro he
      exact h hd.2 (by rw [he]; exact List.mem_cons_self _ _)
    have hb : (i == hd.1) = false := beq_eq_false_iff_ne.mpr hne
    simp only [List.map, List.lookup, hb]
    exact ih (fun p hp => h p (List.mem_cons_of_mem hd hp))

theorem enum_snd_unique {pkgs : List Pkg} {i : Nat} {p q : Pkg}
    (hp : (i, p) ∈ pkgs.enum) (hq : (i, q) ∈ pkgs.enum) : p = q := by
  rw [List.mk_mem_enum_iff_getElem?] at hp hq
  rw [hp] at hq
  exact (Option.some.injEq _ _).mp hq

theorem mem_enum_of_mem {pkgs : List Pkg} {p : Pkg} (h : p ∈ pkgs) :
    ∃ i, (i, p) ∈ pkgs.enum := by
  obtain ⟨n, hn⟩ := List.getElem?_of_mem h
  exact ⟨n, List.mk_mem_enum_iff_getElem?.mpr hn⟩

theorem filter_enum_snd (pkgs : List Pkg) (q : Pkg → Bool) :
    (pkgs.enum.filter (fun ip => q ip.2)).map Prod.snd = pkgs.filter q := by
  have h := List.filter_map (p := q) (f := Prod.snd) (l := pkgs.enum)
  rw [List.enum_map_snd] at h
  exact h.symm

/-- The effect of `fix_pkg_names` on the package list: a no-op when the
group holds no trusted package, otherwise the untrusted packages are
renamed to the name of the first trusted package in the given order. -/
theorem fix_pkg_names_eq (pkgs : List Pkg) :
    fix_pkg_names pkgs =
      match (pkgs.filter trusted_key).head? with
      | none => pkgs
      | some t =>
        pkgs.map (fun p => if trusted_key p then p else set_name t.metadata.name p) := by
  have hall_t : ∀ x ∈ pkgs.enum.filter (fun ip => trusted_key ip.2),
      (fun ip : Nat × Pkg => trusted_key ip.2) x = true := by
    intro x hx; exact (List.mem_filter.mp hx).2
  have hall_u : ∀ x ∈ pkgs.enum.filter (fun ip => !trusted_key ip.2),
      (fun ip : Nat × Pkg => trusted_key ip.2) x = false := by
    intro x hx
    simpa using (List.mem_filter.mp hx).2
  cases hft : pkgs.filter trusted_key with
  | nil =>
    have htl : pkgs.enum.filter (fun ip => trusted_key ip.2) = [] := by
      have := filter_enum_snd pkgs trusted_key
      rw [hft] at this
      exact List.map_eq_nil_iff.mp this
    have hmuts : fix_loop none (groupby (fun ip : Nat × Pkg => trusted_key ip.2)
        (pkgs.enum.filter (fun ip => trusted_key ip.2) ++
          pkgs.enum.filter (fun ip => !trusted_key ip.2))) = [] := by
      rw [htl, List.nil_append]
      cases hu : pkgs.enum.filter (fun ip => !trusted_key ip.2) with
      | nil => rfl
      | cons u us =>
        rw [groupby_const _ false (u :: us) (by simp) (by rw [← hu]; exact hall_u)]
        exact fix_loop_false_only _
    show pkgs.enum.map _ = _
    rw [hmuts]
    simp only [List.lookup]
    exact List.enum_map_snd pkgs
  | cons t ts =>
    have htl_snd : (pkgs.enum.filter (fun ip => trusted_key ip.2)).map Prod.snd = t :: ts := by
      rw [filter_enum_snd, hft]
    cases htlc : pkgs.enum.filter (fun ip => trusted_key ip.2) with
    | nil => rw [htlc] at htl_snd; cases htl_snd
    | cons x tl' =>
      rw [htlc] at htl_snd
      have hx2 : x.2 = t := by
        have := congrArg List.head? htl_snd
        simpa using this
      have hx_mem : x ∈ pkgs.enum.filter (fun ip => trusted_key ip.2) := by
        rw [htlc]; exact List.mem_cons_self _ _
      cases hulc : pkgs.enum.filter (fun ip => !trusted_key ip.2) with
      | nil =>
        have hmuts : fix_loop none (groupby (fun ip : Nat × Pkg => trusted_key ip.2)
            (pkgs.enum.filter (fun ip => trusted_key ip.2) ++
              pkgs.enum.filter (fun ip => !trusted_key ip.2))) = [] := by
          rw [htlc, hulc, List.append_nil]
          rw [groupby_const _ true (x :: tl') (by simp) (by rw [← htlc]; exact hall_t)]
          exact fix_loop_true_only _
        have hall_trusted : ∀ p ∈ pkgs, trusted_key p = true := by
          intro p hp
          obtain ⟨i, hi⟩ := mem_enum_of_mem hp
          cases hk : trusted_key p with
          | true => rfl
          | false =>
            exfalso
            have : (i, p) ∈ pkgs.enum.filter (fun ip => !trusted_key ip.2) :=
              List.mem_filter.mpr ⟨hi, by simp [hk]⟩
            rw [hulc] at this
            cases this
        show pkgs.enum.map _ = _
        rw [hmuts]
        simp only [List.lookup]
        rw [List.enum_map_snd pkgs]
        show pkgs = pkgs.map (fun p => if trusted_key p then p
          else set_name t.metadata.name p)
        have : pkgs.map (fun p => if trusted_key p then p
            else set_name t.metadata.name p) = pkgs.map id := by
          apply List.map_congr_left
          intro p hp
          simp [hall_trusted p hp]
        rw [this, List.map_id]
      | cons u ul' =>
        have hmuts : fix_loop none (groupby (fun ip : Nat × Pkg => trusted_key ip.2)
            (pkgs.enum.filter (fun ip => trusted_key ip.2) ++
              pkgs.enum.filter (fun ip => !trusted_key ip.2))) =
            (u :: ul').map (fun ip => (ip.1, x.2.metadata.name)) := by
          rw [htlc, hulc]
          rw [groupby_true_false _ (u :: ul') (by simp)
            (by rw [← hulc]; exact hall_u) (x :: tl') (by simp)
            (by rw [← htlc]; exact hall_t)]
          exact fix_loop_true_false x tl' (u :: ul')
        show pkgs.enum.map _ = _
        rw [hmuts]
        have hpoint : ∀ ip ∈ pkgs.enum,
            (match List.lookup ip.1 ((u :: ul').map (fun jp => (jp.1, x.2.metadata.name))) with
              | some n => set_name n ip.2
              | none => ip.2) =
            (if trusted_key ip.2 then ip.2 else set_name t.metadata.name ip.2) := by
          intro ip hip
          cases hk : trusted_key ip.2 with
          | true =>
            have hnone : List.lookup ip.1
                ((u :: ul').map (fun jp => (jp.1, x.2.metadata.name))) = none := by
              apply lookup_map_const_of_not_mem
              intro q hq
              rw [← hulc] at hq
              have hq' := List.mem_filter.mp hq
              have hmem : (ip.1, q) ∈ pkgs.enum := hq'.1
              have hqe : q = ip.2 := by
                obtain ⟨i, p⟩ := ip
                exact enum_snd_unique hmem hip
              rw [hqe, hk] at hq'
              simp at hq'
            simp only [hnone]
            simp [hk]
          | false =>
            have hmem : (ip.1, ip.2) ∈ u :: ul' := by
              rw [← hulc]
              exact List.mem_filter.mpr ⟨by simpa using hip, by simp [hk]⟩
            have hsome := lookup_map_const_of_mem x.2.metadata.name hmem
            simp only [hsome]
            simp [hk, hx2]
        rw [List.map_congr_left hpoint]
        have : pkgs.enum.map
            ((fun p => if trusted_key p then p else set_name t.metadata.name p) ∘ Prod.snd) =
            (pkgs.enum.map Prod.snd).map
              (fun p => if trusted_key p then p else set_name t.metadata.name p) := by
          rw [List.map_map]
        rw [show (fun ip : Nat × Pkg =>
            if trusted_key ip.2 then ip.2 else set_name t.metadata.name ip.2) =
            ((fun p => if trusted_key p then p else set_name t.metadata.name p) ∘ Prod.snd)
          from rfl, this, List.enum_map_snd pkgs]
        rfl

/-! ## Symbolic evaluation helpers -/

theorem with_sha256_ok (hashFn : List Nat → String) (w : World) (f : String)
    (fd : FileData) (r : Except PyError Metadata) (m : Metadata)
    (hfile : w.file f = some fd) (h : with_sha256 hashFn w f r = .ok m) :
    m.sha256 = hashFn fd.bytes := by
  cases r with
  | error e => simp [with_sha256] at h
  | ok m0 =>
    unfold with_sha256 at h
    rw [hfile] at h
    cases h
    rfl

/-- Behaviour of `get_metadata_from_archive` when the expected metadata
member is absent: the filename fallback, raising only for a prefix with no
`-`. -/
theorem get_metadata_from_archive_fallback (w : World) (f extension : String)
    (fd : FileData) (idx : Nat)
    (hw : w.file f = some fd)
    (hidx : firstOccur extension.data (basename f).data = some idx)
    (hmem : List.lookup (pkg_info_member ⟨(basename f).data.take idx⟩)
      fd.asArchive = none) :
    get_metadata_from_archive w f extension =
      match rsplitDash ⟨(basename f).data.take idx⟩ with
      | some nv => .ok { name := nv.1, norm_name := normalize nv.1,
                         version := nv.2, homepage := "" }
      | none => .error (.exception "unable to extract metadata") := by
  unfold get_metadata_from_archive
  simp only [hw, hidx, hmem]

theorem parse_pkg_metadata_norm (md : String) (m : Metadata)
    (h : parse_pkg_metadata md = .ok m) : m.norm_name = normalize m.name := by
  unfold parse_pkg_metadata at h
  cases h1 : findField "Name: " md with
  | none => rw [h1] at h; exact Except.noConfusion h
  | some name =>
    rw [h1] at h
    cases h2 : findField "Version: " md with
    | none => rw [h2] at h; exact Except.noConfusion h
    | some version =>
      rw [h2] at h
      cases h
      rfl

theorem get_metadata_from_archive_norm (w : World) (f extension : String)
    (m : Metadata) (h : get_metadata_from_archive w f extension = .ok m) :
    m.norm_name = normalize m.name := by
  unfold get_metadata_from_archive at h
  cases hw : w.file f with
  | none => rw [hw] at h; exact Except.noConfusion h
  | some fd =>
    simp only [hw] at h
    cases hidx : firstOccur extension.data (basename f).data with
    | none => simp only [hidx] at h; exact Except.noConfusion h
    | some idx =>
      simp only [hidx] at h
      cases hmem : List.lookup (pkg_info_member ⟨(basename f).data.take idx⟩)
          fd.asArchive with
      | some md => simp only [hmem] at h; exact parse_pkg_metadata_norm md m h
      | none =>
        simp only [hmem] at h
        cases hnv : rsplitDash ⟨(basename f).data.take idx⟩ with
        | none => simp only [hnv] at h; exact Except.noConfusion h
        | some nv =>
          simp only [hnv] at h
          cases h
          rfl

theorem metadata_from_kwargs_record (m : Metadata) :
    metadata_from_kwargs (metadata_record m) = some m := rfl

theorem metadata_from_kwargs_none_of_missing (ps : List (String × JsonScalar))
    (h : List.lookup "name" ps = none ∨ List.lookup "norm_name" ps = none ∨
      List.lookup "version" ps = none ∨ List.lookup "homepage" ps = none) :
    metadata_from_kwargs ps = none := by
  cases hres : metadata_from_kwargs ps with
  | none => rfl
  | some m =>
    exfalso
    unfold metadata_from_kwargs at hres
    split at hres
    · split at hres
      · rcases h with h | h | h | h <;> simp_all
      · exact Option.noConfusion hres
    · exact Option.noConfusion hres

/-! ## Concrete worlds used by witnesses and counterexamples -/

/-- A download directory holding one source archive `a-1.0.zip` whose
archive has no `PKG-INFO` member, with no sidecar records. -/
def fallbackWorld : World :=
  ⟨fun q =>
    if q = "a-1.0.zip" then
      some { bytes := [0, 1], asJson := .invalid, asArchive := [] }
    else none⟩

/-- A stand-in for the fixed external hash function. -/
def cexHash : List Nat → String := fun _ => "beef"

/-- A directory holding `pkg-1.0.zip` together with a sidecar record whose
stored hash (`"cafe"`) differs from the hash of the file's bytes. -/
def cachedWorld : World :=
  ⟨fun q =>
    if q = "pkg-1.0.zip" then
      some { bytes := [1, 2, 3], asJson := .invalid, asArchive := [] }
    else if q = "pkg-1.0.zip.metadata.json" then
      some { bytes := [], asArchive := [],
             asJson := .object [("name", .s "pkg"), ("norm_name", .s "pkg"),
               ("version", .s "1.0"), ("homepage", .s ""), ("trusted", .b true),
               ("sha256", .s "cafe")] }
    else none⟩

/-- A wheel whose declared name `foobar` does not prefix the filename and
whose homepage slug `foo-bar` does. -/
def cexWheelWorld : World :=
  ⟨fun q =>
    if q = "foo-bar-1.0-py3-none-any.whl" then
      some { bytes := [], asJson := .invalid,
             asArchive := [("foo-bar.dist-info/METADATA",
               "Name: foobar\nVersion: 1.0\nHome-page: https://github.com/x/foo-bar\n")] }
    else none⟩

/-- A wheel whose declared name `my.pkg` does not prefix the filename and
whose homepage is the relative reference `mypkg` (no leading slash). -/
def relHomeWorld : World :=
  ⟨fun q =>
    if q = "mypkg-1.0-py3-none-any.whl" then
      some { bytes := [], asJson := .invalid,
             asArchive := [("mypkg-1.0.dist-info/METADATA",
               "Name: my.pkg\nVersion: 1.0\nHome-page: mypkg\n")] }
    else none⟩

/-- A sidecar record whose bytes do not decode in the text encoding. -/
def undecodableWorld : World :=
  ⟨fun q =>
    if q = "p.zip.metadata.json" then
      some { bytes := [255], asJson := .undecodable, asArchive := [] }
    else none⟩

/-- A sidecar record that is a JSON object missing required fields. -/
def missingFieldsWorld : World :=
  ⟨fun q =>
    if q = "q.zip.metadata.json" then
      some { bytes := [], asJson := .object [("name", .s "x")], asArchive := [] }
    else none⟩

/-- An empty filesystem. -/
def emptyWorld : World := ⟨fun _ => none⟩

/-! ## C1: the content hash and the cache -/

/-- C1 counterexample: the claim says the returned `sha256` is freshly
computed from the file's bytes regardless of cache presence; but with a
cache record present, `get_pkg_metadata` returns the record verbatim — the
stored `"cafe"`, not the hash `"beef"` of the artifact's bytes `[1, 2, 3]`. -/
theorem get_pkg_metadata_cached_hash_cex :
    get_pkg_metadata cexHash cachedWorld "pkg-1.0.zip" =
      .ok { name := "pkg", norm_name := "pkg", version := "1.0", homepage := "",
            trusted := true, sha256 := "cafe" } ∧
    cachedWorld.file "pkg-1.0.zip" =
      some { bytes := [1, 2, 3], asJson := .invalid, asArchive := [] } ∧
    ("cafe" : String) ≠ cexHash [1, 2, 3] := by decide

/-- C1 (amended): when no usable cache record exists (`get_metadata_from_json`
returns `None`), the metadata returned by `get_pkg_metadata` for a
recognized extension carries the hash freshly computed from the whole
file's bytes; when a cache record loads, it is returned as is, stored hash
included. -/
theorem get_pkg_metadata_sha256_fresh (hashFn : List Nat → String) (w : World)
    (f : String) (fd : FileData) (m : Metadata)
    (hcache : get_metadata_from_json w f = .ok none)
    (hfile : w.file f = some fd)
    (hok : get_pkg_metadata hashFn w f = .ok m) :
    m.sha256 = hashFn fd.bytes := by
  unfold get_pkg_metadata at hok
  simp only [hcache] at hok
  split at hok
  · exact with_sha256_ok hashFn w f fd _ m hfile hok
  · split at hok
    · exact with_sha256_ok hashFn w f fd _ m hfile hok
    · split at hok
      · exact with_sha256_ok hashFn w f fd _ m hfile hok
      · split at hok
        · exact with_sha256_ok hashFn w f fd _ m hfile hok
        · exact Except.noConfusion hok

/-- The metadata the C1 witness world extracts. -/
def c1Meta : Metadata :=
  { name := "a", norm_name := "a", version := "1.0", homepage := "",
    trusted := true, sha256 := "beef" }

/-- Witness for C1: on the cache-miss world the returned hash is exactly
`cexHash` of the file's bytes. -/
theorem get_pkg_metadata_sha256_fresh_witness :
    c1Meta.sha256 = cexHash [0, 1] :=
  get_pkg_metadata_sha256_fresh cexHash fallbackWorld "a-1.0.zip"
    { bytes := [0, 1], asJson := .invalid, asArchive := [] } c1Meta
    (by decide) (by decide) (by decide)

/-! ## C5: cache load failure modes -/

/-- C5 counterexample: a sidecar whose bytes do not decode makes
`get_metadata_from_json` raise (`UnicodeDecodeError` is caught by no
clause), instead of returning absent. -/
theorem json_load_undecodable_cex :
    get_metadata_from_json undecodableWorld "p.zip" =
      .error .unicodeDecodeError := by decide

/-- C5 (amended): `get_metadata_from_json` returns absent and does not
raise when the sidecar is missing, when it is not valid JSON text, and
when it is a JSON object lacking a required field; only bytes unreadable
in the text encoding raise. -/
theorem get_metadata_from_json_absent (w : World) (f : String) :
    (w.file (f ++ metadata_ext) = none → get_metadata_from_json w f = .ok none) ∧
    (∀ fd : FileData, w.file (f ++ metadata_ext) = some fd →
      fd.asJson = .invalid → get_metadata_from_json w f = .ok none) ∧
    (∀ (fd : FileData) (ps : List (String × JsonScalar)),
      w.file (f ++ metadata_ext) = some fd → fd.asJson = .object ps →
      (List.lookup "name" ps = none ∨ List.lookup "norm_name" ps = none ∨
        List.lookup "version" ps = none ∨ List.lookup "homepage" ps = none) →
      get_metadata_from_json w f = .ok none) := by
  refine ⟨?_, ?_, ?_⟩
  · intro h
    unfold get_metadata_from_json
    simp only [h]
  · intro fd hfd hj
    unfold get_metadata_from_json
    simp only [hfd, hj]
  · intro fd ps hfd hj hmiss
    unfold get_metadata_from_json
    simp only [hfd, hj, metadata_from_kwargs_none_of_missing ps hmiss]

/-- Witness for C5: a missing sidecar and a record lacking required fields
both load as absent. -/
theorem get_metadata_from_json_absent_witness :
    get_metadata_from_json emptyWorld "p.zip" = .ok none ∧
      get_metadata_from_json missingFieldsWorld "q.zip" = .ok none :=
  ⟨(get_metadata_from_json_absent emptyWorld "p.zip").1 (by decide),
   (get_metadata_from_json_absent missingFieldsWorld "q.zip").2.2
     { bytes := [], asJson := .object [("name", .s "x")], asArchive := [] }
     [("name", .s "x")] (by decide) (by decide) (by decide)⟩

/-! ## C7: cache round-trip -/

/-- C7: storing the metadata of an artifact as its sidecar record and
loading it back yields a value equal in all six fields, for every
filesystem in which the record was not already present — in particular for
filesystems in which the artifact itself is absent or unreadable, so no
archive extraction is involved in the reload. -/
theorem metadata_cache_roundtrip (w : World) (pkg : Pkg)
    (habs : w.file (pkg.file ++ metadata_ext) = none) :
    get_metadata_from_json (create_metadata_file w pkg) pkg.file =
      .ok (some pkg.metadata) := by
  unfold create_metadata_file
  simp only [habs, Option.isSome_none, Bool.false_eq_true, if_false]
  unfold get_metadata_from_json write_file
  simp [metadata_from_kwargs_record]

/-- The metadata value whose round trip the C7 witness checks. -/
def c7Meta : Metadata :=
  { name := "w", norm_name := "w", version := "1.0", homepage := "",
    trusted := false, sha256 := "aa" }

/-- Witness for C7: a concrete store-then-load round trip on the empty
filesystem. -/
theorem metadata_cache_roundtrip_witness :
    get_metadata_from_json (create_metadata_file emptyWorld ⟨"w-1.0.whl", c7Meta⟩)
        "w-1.0.whl" = .ok (some c7Meta) :=
  metadata_cache_roundtrip emptyWorld ⟨"w-1.0.whl", c7Meta⟩ (by decide)

/-! ## C3: name reconciliation -/

/-- The spec example's trusted artifact. -/
def fooPkg : Pkg :=
  ⟨"Foo-1.0-py3-none-any.whl",
   { name := "Foo", norm_name := "foo", version := "1.0", homepage := "" }⟩

/-- The spec example's untrusted artifact. -/
def fooBarPkg : Pkg :=
  ⟨"foo_bar-1.0.tar.gz",
   { name := "foo_bar", norm_name := "foo", version := "1.0", homepage := "",
     trusted := false }⟩

/-- The untrusted artifact after reconciliation. -/
def fooBarRenamed : Pkg :=
  ⟨"foo_bar-1.0.tar.gz",
   { name := "Foo", norm_name := "foo", version := "1.0", homepage := "",
     trusted := false }⟩

/-- C3: `fix_pkg_names` is a no-op on a group with no trusted package;
otherwise the name of the first trusted package in the group's given order
is assigned to every untrusted package, the trusted ones keeping theirs —
in particular a trusted `Foo` and an untrusted `foo_bar` both end up named
`Foo`. -/
theorem fix_pkg_names_reconciliation :
    (∀ pkgs : List Pkg,
        fix_pkg_names pkgs =
          match (pkgs.filter trusted_key).head? with
          | none => pkgs
          | some t =>
            pkgs.map (fun p => if trusted_key p then p
              else set_name t.metadata.name p)) ∧
      fix_pkg_names [fooPkg, fooBarPkg] = [fooPkg, fooBarRenamed] :=
  ⟨fix_pkg_names_eq, by decide⟩

/-! ## C2: the `norm_name` invariant -/

/-- The metadata the wheel repair produces on `cexWheelWorld`. -/
def repairedMeta : Metadata :=
  { name := "foo-bar", norm_name := "foobar", version := "1.0",
    homepage := "https://github.com/x/foo-bar", trusted := false }

/-- C2 counterexample: the wheel name repair rewrites `name` to the
homepage slug `foo-bar` but leaves `norm_name` at the normalization of the
declared name `foobar`, so the advertised invariant fails. -/
theorem wheel_repair_breaks_norm_invariant_cex :
    get_metadata_from_wheel cexWheelWorld "foo-bar-1.0-py3-none-any.whl" =
      .ok repairedMeta ∧
    repairedMeta.norm_name ≠ normalize repairedMeta.name := by decide

/-- C2 (amended): the invariant `norm_name = normalize name` holds for
every metadata value built by `parse_pkg_metadata` and by generic archive
extraction (including the filename fallback), and `fix_pkg_names`
preserves it on a group whose members share one normalized name; the wheel
name repair, however, reassigns `name` without updating `norm_name` and
breaks it (see the counterexample), and a cache load merely restores the
stored fields verbatim. -/
theorem norm_name_invariant_amended :
    (∀ (md : String) (m : Metadata), parse_pkg_metadata md = .ok m →
        m.norm_name = normalize m.name) ∧
    (∀ (w : World) (f extension : String) (m : Metadata),
        get_metadata_from_archive w f extension = .ok m →
        m.norm_name = normalize m.name) ∧
    (∀ pkgs : List Pkg,
        (∀ p ∈ pkgs, p.metadata.norm_name = normalize p.metadata.name) →
        (∀ p ∈ pkgs, ∀ q ∈ pkgs, p.metadata.norm_name = q.metadata.norm_name) →
        ∀ p ∈ fix_pkg_names pkgs, p.metadata.norm_name = normalize p.metadata.name) := by
  refine ⟨parse_pkg_metadata_norm, get_metadata_from_archive_norm, ?_⟩
  intro pkgs hinv hshare p hp
  rw [fix_pkg_names_eq] at hp
  cases hft : (pkgs.filter trusted_key).head? with
  | none => rw [hft] at hp; exact hinv p hp
  | some t =>
    rw [hft] at hp
    have htmem : t ∈ pkgs ∧ trusted_key t = true := by
      cases hfl : pkgs.filter trusted_key with
      | nil => rw [hfl] at hft; exact Option.noConfusion hft
      | cons a as =>
        rw [hfl, List.head?_cons] at hft
        injection hft with hat
        subst hat
        have ha : a ∈ pkgs.filter trusted_key := by
          rw [hfl]; exact List.mem_cons_self a as
        exact List.mem_filter.mp ha
    obtain ⟨q, hq, hpq⟩ := List.mem_map.mp hp
    cases hk : trusted_key q with
    | true =>
      simp only [hk, if_true] at hpq
      subst hpq
      exact hinv q hq
    | false =>
      simp only [hk, Bool.false_eq_true, if_false] at hpq
      subst hpq
      show q.metadata.norm_name = normalize t.metadata.name
      rw [hshare q hq t htmem.1]
      exact hinv t htmem.1

/-- The parse result used by the C2 witness. -/
def c2ParseMeta : Metadata :=
  { name := "a", norm_name := "a", version := "1", homepage := "" }

/-- The archive-fallback result used by the C2 witness. -/
def c2ArchMeta : Metadata :=
  { name := "a", norm_name := "a", version := "1.0", homepage := "" }

/-- A one-package group satisfying the invariant. -/
def c2GroupPkg : Pkg :=
  ⟨"b-1.0.zip", { name := "b", norm_name := "b", version := "1.0", homepage := "" }⟩

/-- Witness for C2: concrete instances of the three amended conjuncts. -/
theorem norm_name_invariant_amended_witness :
    (c2ParseMeta.norm_name = normalize c2ParseMeta.name) ∧
    (c2ArchMeta.norm_name = normalize c2ArchMeta.name) ∧
    (∀ p ∈ fix_pkg_names [c2GroupPkg],
        p.metadata.norm_name = normalize p.metadata.name) :=
  ⟨norm_name_invariant_amended.1 "Name: a\nVersion: 1\n" c2ParseMeta (by decide),
   norm_name_invariant_amended.2.1 fallbackWorld "a-1.0.zip" ".zip" c2ArchMeta
     (by decide),
   norm_name_invariant_amended.2.2 [c2GroupPkg] (by decide) (by decide)⟩

/-! ## C9: the generic-archive fallback -/

/-- C9: for a zip or tar archive whose `PKG-INFO` member is absent,
extraction does not fail but splits the top-level directory name at its
last `-` into name and version with an empty homepage, and raises the
extraction error exactly when that name contains no `-`. -/
theorem archive_missing_member_fallback (w : World) (f extension : String)
    (fd : FileData) (idx : Nat)
    (hw : w.file f = some fd)
    (hidx : firstOccur extension.data (basename f).data = some idx)
    (hmem : List.lookup (pkg_info_member ⟨(basename f).data.take idx⟩)
      fd.asArchive = none) :
    get_metadata_from_archive w f extension =
      match rsplitDash ⟨(basename f).data.take idx⟩ with
      | some nv => .ok { name := nv.1, norm_name := normalize nv.1,
                         version := nv.2, homepage := "" }
      | none => .error (.exception "unable to extract metadata") :=
  get_metadata_from_archive_fallback w f extension fd idx hw hidx hmem

/-- Witness for C9: the fallback on `a-1.0.zip` with an empty archive. -/
theorem archive_missing_member_fallback_witness :
    get_metadata_from_archive fallbackWorld "a-1.0.zip" ".zip" =
      .ok { name := "a", norm_name := "a", version := "1.0", homepage := "" } :=
  (archive_missing_member_fallback fallbackWorld "a-1.0.zip" ".zip"
      { bytes := [0, 1], asJson := .invalid, asArchive := [] } 5
      (by decide) (by decide) (by decide)).trans (by decide)

/-! ## C10: fallback names are trusted -/

/-- A package whose metadata came from the filename fallback. -/
def c10TrustedPkg : Pkg :=
  ⟨"a-1.0.zip", { name := "a", norm_name := "a", version := "1.0", homepage := "" }⟩

/-- An untrusted wheel in the same group. -/
def c10WheelPkg : Pkg :=
  ⟨"A_x-1.0-py3-none-any.whl",
   { name := "A_x", norm_name := "a-x", version := "1.0", homepage := "",
     trusted := false }⟩

/-- The wheel after reconciliation against the fallback package. -/
def c10WheelRenamed : Pkg :=
  ⟨"A_x-1.0-py3-none-any.whl",
   { name := "a", norm_name := "a-x", version := "1.0", homepage := "",
     trusted := false }⟩

/-- C10: the `Metadata` constructor defaults `trusted` to `true`; the
filename-fallback path of generic archive extraction uses those defaults,
so its result is trusted and acts as a canonical-name donor in
reconciliation, as the concrete group shows. -/
theorem archive_fallback_trusted_default :
    (∀ n nn v hp : String,
        ({ name := n, norm_name := nn, version := v, homepage := hp } : Metadata).trusted
          = true) ∧
    (∀ (w : World) (f extension : String) (fd : FileData) (idx : Nat)
        (nv : String × String),
        w.file f = some fd →
        firstOccur extension.data (basename f).data = some idx →
        List.lookup (pkg_info_member ⟨(basename f).data.take idx⟩) fd.asArchive = none →
        rsplitDash ⟨(basename f).data.take idx⟩ = some nv →
        ∃ m, get_metadata_from_archive w f extension = .ok m ∧ m.trusted = true) ∧
    fix_pkg_names [c10TrustedPkg, c10WheelPkg] = [c10TrustedPkg, c10WheelRenamed] := by
  refine ⟨fun n nn v hp => rfl, ?_, by decide⟩
  intro w f extension fd idx nv hw hidx hmem hnv
  refine ⟨Metadata.mk nv.1 (normalize nv.1) nv.2 "" true "", ?_, rfl⟩
  rw [get_metadata_from_archive_fallback w f extension fd idx hw hidx hmem, hnv]

/-- Witness for C10: the fallback result on `a-1.0.zip` is trusted. -/
theorem archive_fallback_trusted_default_witness :
    ∃ m, get_metadata_from_archive fallbackWorld "a-1.0.zip" ".zip" = .ok m ∧
      m.trusted = true :=
  archive_fallback_trusted_default.2.1 fallbackWorld "a-1.0.zip" ".zip"
    { bytes := [0, 1], asJson := .invalid, asArchive := [] } 5 ("a", "1.0")
    (by decide) (by decide) (by decide) (by decide)

/-! ## C4: the wheel name repair -/

/-- C4 counterexample: the claim omits the code's requirement that the
homepage URL path be absolute.  With the relative homepage `mypkg`, whose
final path segment `mypkg` does prefix the filename, the repair is
skipped: the name stays `my.pkg` instead of becoming the segment. -/
theorem wheel_repair_relative_homepage_cex :
    get_metadata_from_wheel relHomeWorld "mypkg-1.0-py3-none-any.whl" =
      .ok { name := "my.pkg", norm_name := "my-pkg", version := "1.0",
            homepage := "mypkg", trusted := false } ∧
    py_startswith (basename "mypkg-1.0-py3-none-any.whl") "my.pkg" = false ∧
    afterLast '/' (strip_trailing_slash (urlparse_path "mypkg")).data = "mypkg".data ∧
    py_startswith (basename "mypkg-1.0-py3-none-any.whl") "mypkg" = true ∧
    ("my.pkg" : String) ≠ "mypkg" := by decide

/-- C4 (amended): for a wheel whose filename does not start with the
declared name and whose homepage URL path is absolute (leading `/`) and
nonempty after dropping one trailing slash, if the final path segment
prefixes the filename then extraction returns that segment as the name
with `trusted = false` (and all other fields as parsed). -/
theorem wheel_repair_amended (w : World) (f content : String) (fd : FileData)
    (m : Metadata)
    (hw : w.file f = some fd)
    (hmem : List.lookup (wheel_metadata_member (basename f)) fd.asArchive =
      some content)
    (hparse : parse_pkg_metadata content = .ok m)
    (hns : py_startswith (basename f) m.name = false)
    (habs : (urlparse_path m.homepage).data.head? = some '/')
    (hnz : strip_trailing_slash (urlparse_path m.homepage) ≠ "")
    (hpre : py_startswith (basename f)
        ⟨afterLast '/' (strip_trailing_slash (urlparse_path m.homepage)).data⟩ = true) :
    get_metadata_from_wheel w f =
      .ok { m with
            trusted := false,
            name := ⟨afterLast '/' (strip_trailing_slash (urlparse_path m.homepage)).data⟩ } := by
  have hne0 : ¬(urlparse_path m.homepage = "") := by
    intro he
    rw [he] at habs
    exact Option.noConfusion habs
  unfold get_metadata_from_wheel
  simp only [hw, hmem, hparse, hns, Bool.false_eq_true, if_false]
  rw [if_pos ⟨hne0, habs⟩, if_pos hnz, if_pos hpre]

/-- Witness for C4: the wheel of `cexWheelWorld`, whose homepage path
`/x/foo-bar` ends in the segment `foo-bar` prefixing the filename. -/
theorem wheel_repair_amended_witness :
    get_metadata_from_wheel cexWheelWorld "foo-bar-1.0-py3-none-any.whl" =
      .ok { name := "foo-bar", norm_name := "foobar", version := "1.0",
            homepage := "https://github.com/x/foo-bar", trusted := false } :=
  (wheel_repair_amended cexWheelWorld "foo-bar-1.0-py3-none-any.whl"
      "Name: foobar\nVersion: 1.0\nHome-page: https://github.com/x/foo-bar\n"
      { bytes := [], asJson := .invalid,
        asArchive := [("foo-bar.dist-info/METADATA",
          "Name: foobar\nVersion: 1.0\nHome-page: https://github.com/x/foo-bar\n")] }
      { name := "foobar", norm_name := "foobar", version := "1.0",
        homepage := "https://github.com/x/foo-bar" }
      (by decide) (by decide) (by decide) (by decide) (by decide) (by decide)
      (by decide)).trans (by decide)

/-! ## C6: version sorting -/

theorem lvEmit_num (cls : Nat) (run : List Char) (hcls : cls = 0 ∨ cls = 2) :
    ∀ x ∈ lvEmit cls run, ∃ n, x = LVComp.num n := by
  intro x hx
  rcases hcls with h | h <;> subst h
  · simp [lvEmit] at hx
    exact ⟨natOfDigits run, hx⟩
  · simp [lvEmit] at hx

theorem lvGo_num : ∀ (cs : List Char) (cls : Nat) (run : List Char),
    (cls = 0 ∨ cls = 2) → (∀ c ∈ cs, lvClass c = 0 ∨ lvClass c = 2) →
    ∀ x ∈ lvGo cls run cs, ∃ n, x = LVComp.num n := by
  intro cs
  induction cs with
  | nil => intro cls run hcls _ x hx; exact lvEmit_num cls run hcls x hx
  | cons c cs ih =>
    intro cls run hcls hall x hx
    rw [show lvGo cls run (c :: cs) =
        if lvClass c = cls then lvGo cls (run ++ [c]) cs
        else lvEmit cls run ++ lvGo (lvClass c) [c] cs from rfl] at hx
    by_cases he : lvClass c = cls
    · rw [if_pos he] at hx
      exact ih cls (run ++ [c]) hcls (fun d hd => hall d (List.mem_cons_of_mem c hd)) x hx
    · rw [if_neg he] at hx
      rcases List.mem_append.mp hx with h | h
      · exact lvEmit_num cls run hcls x h
      · exact ih (lvClass c) [c] (hall c (List.mem_cons_self c cs))
          (fun d hd => hall d (List.mem_cons_of_mem c hd)) x h

theorem lvComponents_num (l : List Char)
    (hl : ∀ c ∈ l, c.isDigit = true ∨ c = '.') :
    ∀ x ∈ lvComponents l, ∃ n, x = LVComp.num n := by
  cases l with
  | nil => intro x hx; cases hx
  | cons c cs =>
    have hcl : ∀ d ∈ c :: cs, lvClass d = 0 ∨ lvClass d = 2 := by
      intro d hd
      rcases hl d hd with h | h
      · left; simp [lvClass, h]
      · right; subst h; decide
    intro x hx
    exact lvGo_num cs (lvClass c) [c] (hcl c (List.mem_cons_self c cs))
      (fun d hd => hcl d (List.mem_cons_of_mem c hd)) x hx

theorem pyListCmp_ok_of_num : ∀ a b : List LVComp,
    (∀ x ∈ a, ∃ n, x = LVComp.num n) → (∀ x ∈ b, ∃ n, x = LVComp.num n) →
    exceptOk (pyListCmp a b) = true := by
  intro a
  induction a with
  | nil => intro b _ _; cases b <;> rfl
  | cons x xs ih =>
    intro b ha hb
    cases b with
    | nil => rfl
    | cons y ys =>
      obtain ⟨n, hn⟩ := ha x (List.mem_cons_self x xs)
      obtain ⟨k, hk⟩ := hb y (List.mem_cons_self y ys)
      subst hn
      subst hk
      cases hcmp : compare n k with
      | lt => simp [pyListCmp, lvCmp, hcmp, exceptOk]
      | gt => simp [pyListCmp, lvCmp, hcmp, exceptOk]
      | eq =>
        simp only [pyListCmp, lvCmp, hcmp]
        exact ih ys (fun z hz => ha z (List.mem_cons_of_mem _ hz))
          (fun z hz => hb z (List.mem_cons_of_mem _ hz))

/-- C6 counterexample: `sort_versions` raises `TypeError` when a numeric
component meets an alphabetic one (`["1.1", "1a"]` compares `1` against
`"a"`); and the comparison is by `LooseVersion` components, not by
dot-separated fields — `"1.10"` outranks `"1.2a"` numerically, while a
lexical dot-field comparison of `"2a"` and `"10"` would say the opposite. -/
theorem sort_versions_type_error_cex :
    sort_versions ["1.1", "1a"] = .error .typeError ∧
      sort_versions ["1.2a", "1.10"] = .ok ["1.10", "1.2a"] := by decide

/-- C6 (amended): `sort_versions` orders by `LooseVersion` component lists
(digit runs numeric, letter runs lexical, dots dropped), descending; it
never raises on purely dotted-numeric version strings — in particular it
sorts the spec's example `["1.9", "1.10", "1.2"]` to
`["1.10", "1.9", "1.2"]` — but a list mixing numeric and alphabetic
components at a deciding position raises `TypeError` (see the
counterexample). -/
theorem sort_versions_amended :
    (∀ versions : List String,
        (∀ v ∈ versions, ∀ c ∈ v.data, c.isDigit = true ∨ c = '.') →
        exceptOk (sort_versions versions) = true) ∧
      sort_versions ["1.9", "1.10", "1.2"] = .ok ["1.10", "1.9", "1.2"] := by
  constructor
  · intro versions hall
    have hcond : ((versions.map (fun v => (v, lvComponents v.data))).all fun a =>
        (versions.map (fun v => (v, lvComponents v.data))).all fun b =>
          exceptOk (pyListCmp a.2 b.2)) = true := by
      rw [List.all_eq_true]
      intro a ha
      rw [List.all_eq_true]
      intro b hb
      obtain ⟨va, hva, rfl⟩ := List.mem_map.mp ha
      obtain ⟨vb, hvb, rfl⟩ := List.mem_map.mp hb
      exact pyListCmp_ok_of_num _ _ (lvComponents_num _ (hall va hva))
        (lvComponents_num _ (hall vb hvb))
    unfold sort_versions
    simp only [hcond, if_true]
    rfl
  · decide

/-- Witness for C6: the all-numeric hypothesis holds of the spec's
example, so its sort succeeds. -/
theorem sort_versions_amended_witness :
    exceptOk (sort_versions ["1.9", "1.10", "1.2"]) = true :=
  sort_versions_amended.1 ["1.9", "1.10", "1.2"] (by decide)

end PypiMirror
